import Mathlib

/-!
Verification development for the mini-lop grey-box fuzzer.

Shallow embedding of the Python sources (`main.py`, `schedule.py`, `seed.py`,
`feedback.py`, `mutation.py`).  Randomness drawn inside the Python code
(`random.randint`, `random.choice`, `random.random`) is modelled by explicit
parameters; a uniformly drawn index into a list is modelled by an arbitrary
natural number reduced modulo the list length, which ranges over exactly the
indices the Python call can produce.  File contents are byte lists
(`List Nat`, one entry per byte), execution times are rationals, and Python
sets of edges are `Finset Nat`.
-/

namespace MiniLop

/-- Seed record from `seed.py`.  `coverage` is the edge set observed when the
seed was first executed, `file_size` comes from `os.path.getsize` at
construction time, and `favored` starts out `False`. -/
structure Seed where
  path : String
  seed_id : Nat
  coverage : Finset Nat
  exec_time : Rat
  file_size : Nat
  favored : Bool := false
  deriving DecidableEq

/-- `Seed.get_valuation` from `seed.py`: execution time times file size. -/
def Seed.get_valuation (s : Seed) : Rat :=
  s.exec_time * (s.file_size : Rat)

/-- `Seed.mark_favored`. -/
def Seed.mark_favored (s : Seed) : Seed := { s with favored := true }

/-- `Seed.unmark_favored`. -/
def Seed.unmark_favored (s : Seed) : Seed := { s with favored := false }

/-! ## Crash classifier (`feedback.py`) -/

/-- The keys of the `crash_signals` dictionary in `check_crash`. -/
def crash_signals : List Nat :=
  [1, 2, 3, 4, 6, 7, 8, 9, 11, 13, 14, 15, 24, 25, 31]

/-- `check_crash` from `feedback.py`: the status is a crash when its low 7
bits are a recognised crash signal or its core-dump bit (0x80) is set. -/
def check_crash (status_code : Nat) : Bool :=
  let is_core_dump : Bool := (status_code &&& 0x80) != 0
  let actual_signal : Nat := status_code &&& 0x7f
  crash_signals.contains actual_signal || is_core_dump

/-! ## Coverage extraction (`feedback.py`) -/

/-- `check_coverage` from `feedback.py`.  The trace map is a byte list; the
current coverage is the set of indices holding a non-zero byte, and the first
component reports whether any of those edges is outside `global_coverage`.
`global_coverage` is not modified. -/
def check_coverage (trace_bits : List Nat) (global_coverage : Finset Nat) :
    Bool × Finset Nat :=
  let current_coverage : Finset Nat :=
    ((trace_bits.enum.filter (fun p => p.2 ≠ 0)).map (fun p => p.1)).toFinset
  (decide (current_coverage \ global_coverage ≠ ∅), current_coverage)

/-! ## Edge→seed index (`main.py`)

The Python code keeps `edge_to_seeds` as a dictionary from edge to the list of
ids of the seeds covering it.  Dictionaries preserve insertion order, so the
index is modelled as an association list. -/

/-- Append a seed id to the list held for one edge, creating the entry when
the edge is not yet a key (the `if edge not in edge_to_seeds` branch). -/
def indexAdd : List (Nat × List Nat) → Nat → Nat → List (Nat × List Nat)
  | [], e, sid => [(e, [sid])]
  | (k, l) :: t, e, sid =>
    if k = e then (k, l ++ [sid]) :: t else (k, l) :: indexAdd t e sid

/-- The loop `for edge in seed_coverage: edge_to_seeds[edge].append(i)`.
The Python set is iterated here in ascending order of edge index. -/
def indexAddCoverage (idx : List (Nat × List Nat)) (cov : Finset Nat)
    (sid : Nat) : List (Nat × List Nat) :=
  (cov.sort (· ≤ ·)).foldl (fun ix e => indexAdd ix e sid) idx

/-! ## Favored-seed recomputation (`update_favored_seeds` in `main.py`) -/

/-- Stable insertion of `x` into a list already sorted weakly by `key`: `x`
lands in front of the first element whose key is not smaller, which is the
relative placement Python stable sort produces. -/
def insertByKey {α : Type} (key : α → Rat) (x : α) : List α → List α
  | [] => [x]
  | y :: ys =>
    if key y < key x then y :: insertByKey key x ys else x :: y :: ys

/-- Stable sort by `key`, modelling `list.sort(key=...)`. -/
def sortByKey {α : Type} (key : α → Rat) : List α → List α
  | [] => []
  | x :: xs => insertByKey key x (sortByKey key xs)

/-- First element of minimal key.  Proved below to be the head of
`sortByKey`. -/
def firstMinByKey {α : Type} (key : α → Rat) : List α → Option α
  | [] => none
  | x :: xs =>
    match firstMinByKey key xs with
    | none => some x
    | some m => if key m < key x then some m else some x

/-- Mark the queue cell at position `i` favored (marking `seeds[0]` in Python
mutates the seed object, i.e. the queue cell it was fetched from). -/
def markAt : List Seed → Nat → List Seed
  | [], _ => []
  | s :: t, 0 => s.mark_favored :: t
  | s :: t, n + 1 => s :: markAt t n

/-- The comprehension `[seed_queue[seed_id] for seed_id in seed_ids]`, keeping
each fetched seed together with the id it was fetched at.  An out-of-range id,
which would raise `IndexError` in Python, is skipped. -/
def fetchSeeds (q : List Seed) (ids : List Nat) : List (Nat × Seed) :=
  ids.filterMap (fun i => (q.get? i).map (fun s => (i, s)))

/-- Processing of one index entry: sort the covering seeds stably by
valuation and mark the first one favored. -/
def favorEdge (q : List Seed) (ids : List Nat) : List Seed :=
  match (sortByKey (fun p => p.2.get_valuation) (fetchSeeds q ids)).head? with
  | none => q
  | some p => markAt q p.1

/-- `update_favored_seeds` from `main.py`: unmark every seed, then for each
edge of the index mark favored the head of its covering seeds sorted stably
by valuation. -/
def update_favored_seeds (seed_queue : List Seed)
    (edge_to_seeds : List (Nat × List Nat)) : List Seed :=
  edge_to_seeds.foldl (fun q entry => favorEdge q entry.2)
    (seed_queue.map Seed.unmark_favored)

/-! ## Scheduler (`schedule.py`) -/

/-- `select_next_seed` from `schedule.py`.  `coin` models the draw
`random.random() < 0.9` and `idx` the uniform draw of `random.choice` (an
arbitrary natural reduced modulo the pool length).  Returns, as in Python,
the selected seed, the used-id set, the cycle seed count and the new-cycle
flag.  A `random.choice` on an empty pool, which raises in Python, returns
`none` here; the theorems below show it cannot happen on well-formed
queues. -/
def select_next_seed (seed_queue : List Seed) (seeds_used_in_cycle : Finset Nat)
    (cycle_seed_count : Nat) (coin : Bool) (idx : Nat) :
    Option Seed × Finset Nat × Nat × Bool :=
  if seed_queue = [] then (none, seeds_used_in_cycle, cycle_seed_count, false)
  else
    let st :=
      if cycle_seed_count ≤ seeds_used_in_cycle.card then
        ((∅ : Finset Nat), seed_queue.length, true)
      else (seeds_used_in_cycle, cycle_seed_count, false)
    let used := st.1
    let unused_seeds := seed_queue.filter (fun s => s.seed_id ∉ used)
    let unused_favored := unused_seeds.filter (fun s => s.favored)
    let pool := if unused_favored ≠ [] ∧ coin = true then unused_favored
                else unused_seeds
    match pool.get? (idx % pool.length) with
    | none => (none, used, st.2.1, st.2.2)
    | some s => (some s, insert s.seed_id used, st.2.1, st.2.2)

/-- Python `int()` truncation toward zero, on a rational. -/
def pyInt (q : Rat) : Int := if 0 ≤ q then ⌊q⌋ else -⌊-q⌋

/-- `get_power_schedule` from `schedule.py`. -/
def get_power_schedule (seed : Seed) (avg_exec_time : Rat) : Int :=
  let perf_score : Rat := 100
  let perf_score :=
    if 0 < seed.exec_time ∧ 0 < avg_exec_time then
      let time_factor := avg_exec_time / seed.exec_time
      let time_factor := min (max time_factor (1 / 10)) 3
      perf_score * time_factor
    else perf_score
  let coverage_factor : Rat := 1 + (seed.coverage.card : Rat) / 100
  let perf_score := perf_score * coverage_factor
  let mutations := pyInt (perf_score / 100 * 100)
  let mutations := min mutations 1000
  max mutations 1

/-! ## Mutation bandit (`mutation.py`, class `MutationStrategy`) -/

/-- The two mutation operators arbitrated by the bandit. -/
inductive Operator
  | havoc
  | splice
  deriving DecidableEq

/-- The per-operator counters of `MutationStrategy`. -/
structure MutationStats where
  havoc_rewards : Nat := 0
  splice_rewards : Nat := 0
  havoc_uses : Nat := 0
  splice_uses : Nat := 0
  havoc_crashes : Nat := 0
  splice_crashes : Nat := 0
  deriving DecidableEq

/-- `MutationStrategy.update_rewards`. -/
def update_rewards (st : MutationStats) (operator : Operator)
    (new_coverage : Nat) (crashed : Bool) : MutationStats :=
  match operator with
  | .havoc =>
      { st with
        havoc_uses := st.havoc_uses + 1
        havoc_rewards := st.havoc_rewards + new_coverage
        havoc_crashes := if crashed then st.havoc_crashes + 1
                         else st.havoc_crashes }
  | .splice =>
      { st with
        splice_uses := st.splice_uses + 1
        splice_rewards := st.splice_rewards + new_coverage
        splice_crashes := if crashed then st.splice_crashes + 1
                          else st.splice_crashes }

/-! ## Havoc mutator (`mutation.py`, class `HavocMutator`)

A buffer is a byte list.  `struct.pack_into` with format `<h` / `<i` / `<q`
writes the little-endian two byte, four byte or eight byte two-complement
encoding of an in-range signed integer; the encoding of `v` is the byte
decomposition of `v mod 2^(8w)`. -/

/-- Width in bytes selected by `random.choice(sizes)`, where the Python
`sizes` lists hold the widths 2, 4 and 8 in that order. -/
def opWidth (w : Nat) : Nat :=
  match w % 3 with
  | 0 => 2
  | 1 => 4
  | _ => 8

/-- Little-endian bytes of `v mod 2^(8*w)`, the encoding `struct.pack_into`
writes for a `w`-byte signed format. -/
def leBytes (w : Nat) (v : Int) : List Nat :=
  (List.range w).map (fun j => ((v.emod (2 ^ (8 * w))).toNat >>> (8 * j)) % 256)

/-- Overwrite `w` bytes of `data` at offset `idx` with the little-endian
encoding of `v` (`struct.pack_into(fmt, data, idx, value)`). -/
def packInto (data : List Nat) (idx w : Nat) (v : Int) : List Nat :=
  data.take idx ++ leBytes w v ++ data.drop (idx + w)

/-- Value of a little-endian byte list. -/
def leVal (bs : List Nat) : Nat :=
  bs.foldr (fun b acc => b + 256 * acc) 0

/-- Signed reading of `w` bytes of `data` at offset `idx`
(`struct.unpack_from` with a signed little-endian format). -/
def unpackFrom (data : List Nat) (idx w : Nat) : Int :=
  let n := leVal ((data.drop idx).take w)
  if n < 2 ^ (8 * w - 1) then (n : Int) else (n : Int) - 2 ^ (8 * w)

/-- Whether `v` fits a `w`-byte signed format; when it does not,
`struct.pack_into` raises `struct.error`. -/
def fitsSigned (w : Nat) (v : Int) : Prop :=
  -(2 ^ (8 * w - 1)) ≤ v ∧ v ≤ 2 ^ (8 * w - 1) - 1

instance (w : Nat) (v : Int) : Decidable (fitsSigned w v) := by
  unfold fitsSigned; infer_instance

/-- The inline 2-byte interesting-value list of
`interesting_value_mutation` (its last entry is `65535 & 0x7fff`). -/
def INTERESTING_16_inline : List Int :=
  [-32768, 32767, -1, 0, 1, -128, 127, 255, -256, 256,
   ((65535 &&& 0x7fff : Nat) : Int)]

/-- `INTERESTING_32` from `mutation.py`. -/
def INTERESTING_32 : List Int :=
  [0, -2147483648, 2147483647, -1, 1, -32768, 32767, -65536, 65535,
   -100663046, 100663046]

/-- `INTERESTING_64` from `mutation.py`. -/
def INTERESTING_64 : List Int :=
  [0, -1, 1, -4294967296, 4294967296, -2147483648, 2147483647,
   9223372036854775807, -9223372036854775808]

/-- One havoc mutation together with the random draws it consumes.  The
constructor index mirrors `mutation_choice = random.randint(0, 6)`. -/
inductive HavocOp
  | bitFlip (i pos : Nat)
  | intMut (w i v : Nat)
  | interesting (w i c : Nat)
  | chunk (c sp dp : Nat)
  | dictInsert (t p : Nat)
  | dictReplace (t p : Nat)
  | arith (w i d : Nat)
  deriving DecidableEq

/-- `bit_flip_mutation`: flip one bit of one byte. -/
def bit_flip_mutation (data : List Nat) (i pos : Nat) : List Nat :=
  let idx := i % data.length
  let bit_pos := pos % 8
  data.set idx (data.getD idx 0 ^^^ (1 <<< bit_pos))

/-- `integer_mutation`: overwrite an aligned-arbitrary offset with a uniform
random signed integer of the chosen width.  The draw
`random.randint(min_val, max_val)` followed by packing is modelled by packing
`v mod 2^(8w)`, which ranges over exactly the same encodings. -/
def integer_mutation (data : List Nat) (w i v : Nat) : List Nat :=
  let size := opWidth w
  if data.length < size then data
  else
    let idx := i % (data.length - size + 1)
    packInto data idx size ((v % 2 ^ (8 * size) : Nat) : Int)

/-- `interesting_value_mutation`: overwrite with a boundary constant of the
chosen width; on `struct.error` saturate to the extreme of the format. -/
def interesting_value_mutation (data : List Nat) (w i c : Nat) : List Nat :=
  let size := opWidth w
  let vals : List Int :=
    match w % 3 with
    | 0 => INTERESTING_16_inline
    | 1 => INTERESTING_32
    | _ => INTERESTING_64
  if data.length < size then data
  else
    let idx := i % (data.length - size + 1)
    let value := vals.getD (c % vals.length) 0
    if fitsSigned size value then packInto data idx size value
    else if 0 < value then packInto data idx size (2 ^ (size * 8 - 1) - 1)
    else packInto data idx size (-(2 ^ (size * 8 - 1)))

/-- `chunk_replacement_mutation`: copy a chunk from a random source offset
over a random destination offset of the same buffer. -/
def chunk_replacement_mutation (data : List Nat) (c sp dp : Nat) : List Nat :=
  if data.length < 4 then data
  else
    let m := min 32 (data.length / 2)
    let chunk_size := 2 + c % (m - 1)
    let src_pos := sp % (data.length - chunk_size + 1)
    let dst_pos := dp % (data.length - chunk_size + 1)
    let chunk := (data.drop src_pos).take chunk_size
    data.take dst_pos ++ chunk ++ data.drop (dst_pos + chunk_size)

/-- `dictionary_insert_mutation`: insert a dictionary token, extending the
buffer (or append it when the buffer is shorter than 2 bytes). -/
def dictionary_insert_mutation (dict : List (List Nat)) (data : List Nat)
    (t p : Nat) : List Nat :=
  if dict = [] then data
  else
    let token := dict.getD (t % dict.length) []
    if data.length < 2 then data ++ token
    else
      let pos := p % data.length
      data.take pos ++ token ++ data.drop pos

/-- `dictionary_replace_mutation`: overwrite bytes with a dictionary token
that fits. -/
def dictionary_replace_mutation (dict : List (List Nat)) (data : List Nat)
    (t p : Nat) : List Nat :=
  if dict = [] ∨ data.length < 2 then data
  else
    let token := dict.getD (t % dict.length) []
    if data.length < token.length then data
    else
      let pos := p % (data.length - token.length + 1)
      data.take pos ++ token ++ data.drop (pos + token.length)

/-- `arithmetic_mutation`: add a bounded delta to a signed integer read from
the buffer; on overflow of the format write the opposite extreme delta. -/
def arithmetic_mutation (data : List Nat) (w i d : Nat) : List Nat :=
  let size := opWidth w
  let bound : Int :=
    match w % 3 with
    | 0 => 256
    | 1 => 65536
    | _ => 4294967296
  if data.length < size then data
  else
    let idx := i % (data.length - size + 1)
    let value := unpackFrom data idx size
    let delta : Int := ((d % (2 * bound.toNat + 1) : Nat) : Int) - bound
    if fitsSigned size (value + delta) then packInto data idx size (value + delta)
    else if 0 < delta then packInto data idx size (-bound)
    else packInto data idx size bound

/-- Dispatch of one havoc mutation on the buffer. -/
def applyHavocOp (dict : List (List Nat)) (data : List Nat) :
    HavocOp → List Nat
  | .bitFlip i pos => bit_flip_mutation data i pos
  | .intMut w i v => integer_mutation data w i v
  | .interesting w i c => interesting_value_mutation data w i c
  | .chunk c sp dp => chunk_replacement_mutation data c sp dp
  | .dictInsert t p => dictionary_insert_mutation dict data t p
  | .dictReplace t p => dictionary_replace_mutation dict data t p
  | .arith w i d => arithmetic_mutation data w i d

/-- `HavocMutator.mutate`: read the seed file into `data`; when it is shorter
than 8 bytes return without mutating and without writing; otherwise apply the
drawn mutations and return the buffer to be written to `current_input`.
`ops` carries the random draws of one call (its length plays the role of
`num_mutations`). -/
def havoc_mutate (dict : List (List Nat)) (ops : List HavocOp)
    (data : List Nat) : Option (List Nat) :=
  if data.length < 8 then none
  else some (ops.foldl (applyHavocOp dict) data)

/-- Contents of `current_input` after a call to `HavocMutator.mutate`: the
mutated buffer when the mutator writes, the previous contents when it
returns early. -/
def current_after_havoc (prev : List Nat) (dict : List (List Nat))
    (ops : List HavocOp) (data : List Nat) : List Nat :=
  match havoc_mutate dict ops data with
  | some out => out
  | none => prev

/-- Iterated havoc-only runs of the inner mutation loop of `run_fuzzing`
(one entry of `steps` per run), tracking the contents of `current_input`. -/
def current_after_havoc_runs (prev : List Nat) (dict : List (List Nat))
    (steps : List (List HavocOp)) (data : List Nat) : List Nat :=
  steps.foldl (fun cur ops => current_after_havoc cur dict ops data) prev

/-- The writes `HavocMutator.mutate` performs on `current_input`, in order. -/
def havocWrites (dict : List (List Nat)) (ops : List HavocOp)
    (data : List Nat) : List (List Nat) :=
  match havoc_mutate dict ops data with
  | some out => [out]
  | none => []

/-- `SpliceMutator.mutate`.  `fs` gives the bytes `open(path).read()` returns
for each path, `choice` the uniform draw of the splice partner, `p1r` and
`p2r` the draws of the split points and `ops` the draws of the final havoc
call.  The result is the ordered list of writes to `current_input`.
A `random.choice` on an empty partner list, which raises in Python, yields
`[]` here. -/
def splice_mutate (dict : List (List Nat)) (fs : String → List Nat)
    (seed : Seed) (seed_queue : List Seed) (choice p1r p2r : Nat)
    (ops : List HavocOp) : List (List Nat) :=
  if seed_queue.length < 2 then havocWrites dict ops (fs seed.path)
  else
    let other_seeds := seed_queue.filter (fun s => s.seed_id ≠ seed.seed_id)
    match other_seeds.get? (choice % other_seeds.length) with
    | none => []
    | some other_seed =>
      let data1 := fs seed.path
      let data2 := fs other_seed.path
      if data1.length < 4 ∨ data2.length < 4 then havocWrites dict ops data1
      else
        let split_point1 := 1 + p1r % (data1.length - 2)
        let split_point2 := 1 + p2r % (data2.length - 2)
        let spliced_data := data1.take split_point1 ++ data2.drop split_point2
        spliced_data :: havocWrites dict ops data1

/-! ## Main loop (`run_fuzzing` in `main.py`) -/

/-- Classification of one run of the target inside the loops of
`run_fuzzing`. -/
inductive RunOutcome
  | timeout
  | crash
  | noNewCoverage
  | newSeed
  deriving DecidableEq

/-- The mutable state of `run_fuzzing` the claims are about.  `crash_files`
counts the files `save_crash_input` has written to the crashes folder. -/
structure FuzzState where
  seed_queue : List Seed := []
  global_coverage : Finset Nat := ∅
  edge_to_seeds : List (Nat × List Nat) := []
  stats : MutationStats := {}
  crash_files : Nat := 0
  deriving DecidableEq

/-- External observations of one run of the target: the status returned by
`run_target` (with 9 the synthetic timeout sentinel), the elapsed time, the
trace map bytes read back from shared memory, and the size of the input file
admitted as a seed. -/
structure RunObs where
  status_code : Nat
  exec_time : Rat
  trace_bits : List Nat
  input_size : Nat

/-- One iteration of the dry-run loop of `run_fuzzing`, for the seed file of
enumeration index `i`: a timed-out run (`status_code == 9`) is skipped before
`check_crash` is consulted, a crashing seed is skipped, and otherwise the
seed is admitted with id `i` while the global coverage and the edge→seed
index are extended. -/
def dry_run_step (st : FuzzState) (i : Nat) (seed_path : String)
    (obs : RunObs) : FuzzState :=
  if obs.status_code = 9 then st
  else if check_crash obs.status_code then st
  else
    let r := check_coverage obs.trace_bits st.global_coverage
    let seed_coverage := r.2
    let global := st.global_coverage ∪ seed_coverage
    let idx := indexAddCoverage st.edge_to_seeds seed_coverage i
    let new_seed : Seed :=
      ⟨seed_path, i, seed_coverage, obs.exec_time, obs.input_size, false⟩
    { st with
      seed_queue := st.seed_queue ++ [new_seed]
      global_coverage := global
      edge_to_seeds := idx }

/-- The dry-run loop `for i, seed_file in enumerate(seed_files)`. -/
def dry_run (files : List (String × RunObs)) (st : FuzzState) : FuzzState :=
  files.enum.foldl (fun s p => dry_run_step s p.1 p.2.1 p.2.2) st

/-- One iteration of the inner mutation loop of `run_fuzzing`, after the
mutated input has been written to `current_input`: a timed-out run is skipped
before `check_crash` is consulted; a crashing run saves a crash file and
notifies the bandit with reward 0; a run with new coverage merges it into
the global coverage, admits a new seed whose id is the current queue length,
and notifies the bandit with the size of `seed_coverage - global_coverage`
computed after that merge; any other run changes nothing. -/
def fuzz_iteration (st : FuzzState) (operator : Operator) (obs : RunObs) :
    FuzzState × RunOutcome :=
  if obs.status_code = 9 then (st, .timeout)
  else if check_crash obs.status_code then
    ({ st with
       crash_files := st.crash_files + 1
       stats := update_rewards st.stats operator 0 true }, .crash)
  else
    let r := check_coverage obs.trace_bits st.global_coverage
    let new_edge_covered := r.1
    let seed_coverage := r.2
    if new_edge_covered then
      let global := st.global_coverage ∪ seed_coverage
      let seed_id := st.seed_queue.length
      let idx := indexAddCoverage st.edge_to_seeds seed_coverage seed_id
      let new_seed : Seed :=
        ⟨"id_" ++ toString seed_id, seed_id, seed_coverage, obs.exec_time,
         obs.input_size, false⟩
      let stats := update_rewards st.stats operator
        ((seed_coverage \ global).card) false
      ({ st with
         seed_queue := st.seed_queue ++ [new_seed]
         global_coverage := global
         edge_to_seeds := idx
         stats := stats }, .newSeed)
    else (st, .noNewCoverage)

/-- Folding consecutive fuzz-loop iterations, keeping only the state. -/
def fuzz_run (st : FuzzState) (its : List (Operator × RunObs)) : FuzzState :=
  its.foldl (fun s p => (fuzz_iteration s p.1 p.2).1) st

/-- The queue invariant of the claims: the seed stored at queue position `k`
carries id `k`. -/
def idsArePositions (q : List Seed) : Prop :=
  ∀ k s, q.get? k = some s → s.seed_id = k

/-! ## Derived notions used to state the favored-seed claims -/

/-- Valuation of the seed at queue position `i` (0 outside the queue). -/
def valAt (q : List Seed) (i : Nat) : Rat :=
  ((q.get? i).map Seed.get_valuation).getD 0

/-- Position `k` holds the seed that is minimal for `(valuation, id)` among
the queue positions listed in `ids`. -/
def IsLexMinFor (q : List Seed) (k : Nat) (ids : List Nat) : Prop :=
  k ∈ ids ∧ ∀ j ∈ ids, valAt q k < valAt q j ∨ (valAt q k = valAt q j ∧ k ≤ j)

instance (q : List Seed) (k : Nat) (ids : List Nat) :
    Decidable (IsLexMinFor q k ids) := by
  unfold IsLexMinFor; infer_instance

/-- The queue position `favorEdge` marks: the first position of minimal
valuation among the fetched covering seeds. -/
def chosenIdx (q : List Seed) (ids : List Nat) : Option Nat :=
  (firstMinByKey (fun p => p.2.get_valuation) (fetchSeeds q ids)).map Prod.fst

/-- Two queues that agree everywhere except possibly on favored flags. -/
def agreesExceptFavored (q r : List Seed) : Prop :=
  ∀ k, (q.get? k).map Seed.unmark_favored = (r.get? k).map Seed.unmark_favored

/-! ## Scheduler call traces -/

/-- The inputs of one call to `select_next_seed`: the queue at call time and
the two random draws. -/
structure SchedCall where
  queue : List Seed
  coin : Bool
  idx : Nat

/-- The outputs of one call to `select_next_seed`. -/
structure SchedResult where
  selected : Option Seed
  used : Finset Nat
  cyc : Nat
  new_cycle : Bool

/-- One call to `select_next_seed`, repackaged. -/
def sched_step (c : SchedCall) (used : Finset Nat) (cyc : Nat) : SchedResult :=
  let r := select_next_seed c.queue used cyc c.coin c.idx
  ⟨r.1, r.2.1, r.2.2.1, r.2.2.2⟩

/-- A sequence of calls to `select_next_seed`, threading the returned used
set and cycle seed count through the calls as `run_fuzzing` does. -/
def sched_trace : List SchedCall → Finset Nat → Nat → List SchedResult
  | [], _, _ => []
  | c :: cs, used, cyc =>
    let r := sched_step c used cyc
    r :: sched_trace cs r.used r.cyc

/-- The seed ids returned along a scheduler trace. -/
def trace_ids (rs : List SchedResult) : List Nat :=
  rs.filterMap (fun r => r.selected.map Seed.seed_id)

/-! ## Concrete fixtures used by counterexamples and witnesses -/

/-- Dry-run corpus whose first file times out and whose second file runs
normally with coverage on edge 0. -/
def c1Files : List (String × RunObs) :=
  [("f0", ⟨9, 1, [1], 8⟩), ("f1", ⟨0, 1, [1], 8⟩)]

/-- State after the dry run on `c1Files`. -/
def c1St : FuzzState := dry_run c1Files {}

/-- Observation of a fuzz-loop run that exits normally and covers the new
edge 1. -/
def c1ObsNew : RunObs := ⟨0, 1, [0, 1], 8⟩

/-- Observation of a fuzz-loop run that exits normally and covers only the
already-global edge 0. -/
def c2ObsOld : RunObs := ⟨0, 1, [1], 8⟩

/-- A state whose global coverage is empty, so that a run with coverage
discovers new edges. -/
def c2StEmpty : FuzzState := {}

/-- Seed files seen by the splice counterexample: the selected seed file has
5 bytes, the partner file 4 bytes. -/
def c4fs : String → List Nat :=
  fun p => if p = "a" then [0, 1, 2, 3, 4] else [9, 9, 9, 9]

/-- The selected seed of the splice counterexample. -/
def c4a : Seed := ⟨"a", 0, ∅, 1, 5, false⟩

/-- The splice partner of the splice counterexample. -/
def c4b : Seed := ⟨"b", 1, ∅, 1, 4, false⟩

/-- Havoc draws used by the splice fixtures: a single bit flip. -/
def c4ops : List HavocOp := [.bitFlip 0 0]

/-- Seed files of the splice witness: the selected seed file has 8 bytes. -/
def c4wfs : String → List Nat :=
  fun p => if p = "a" then [0, 1, 2, 3, 4, 5, 6, 7] else [9, 9, 9, 9]

/-- The selected seed of the splice witness. -/
def c4wa : Seed := ⟨"a", 0, ∅, 1, 8, false⟩

/-- Two-seed queue with distinct valuations covering a shared edge 100 and a
private edge 200 of the second seed. -/
def c3Queue : List Seed :=
  [⟨"p0", 0, ∅, 1, 1, false⟩, ⟨"p1", 1, ∅, 2, 1, false⟩]

/-- Edge→seed index of the favored counterexample: edge 100 is covered by
both seeds, edge 200 only by seed 1. -/
def c3Index : List (Nat × List Nat) := [(100, [0, 1]), (200, [1])]

/-- Two seeds of equal valuation. -/
def c5Queue : List Seed :=
  [⟨"p0", 0, ∅, 1, 1, false⟩, ⟨"p1", 1, ∅, 1, 1, false⟩]

/-- Index entry whose seed list is valid but not in increasing id order. -/
def c5Index : List (Nat × List Nat) := [(5, [1, 0])]

/-- Two favored seeds with distinct ids, used by scheduler fixtures. -/
def c7Queue : List Seed :=
  [⟨"p0", 0, ∅, 1, 1, true⟩, ⟨"p1", 1, ∅, 1, 1, true⟩]

/-- Two scheduler calls over the two-seed queue. -/
def c7Calls : List SchedCall := [⟨c7Queue, true, 0⟩, ⟨c7Queue, true, 0⟩]

/-! ## Theorems -/

/-- Elements of `fetchSeeds` are id-seed pairs read off the queue. -/
theorem fetchSeeds_mem_spec (q : List Seed) (ids : List Nat) (p : Nat × Seed)
    (h : p ∈ fetchSeeds q ids) : p.1 ∈ ids ∧ q.get? p.1 = some p.2 := by
  unfold fetchSeeds at h
  rcases List.mem_filterMap.mp h with ⟨i, hi, hf⟩
  cases hg : q.get? i with
  | none => rw [hg] at hf; cases hf
  | some s =>
      rw [hg] at hf
      obtain rfl := Option.some.inj hf
      exact ⟨hi, hg⟩

/-- Every listed id whose queue cell exists contributes a fetched pair. -/
theorem mem_fetchSeeds (q : List Seed) (ids : List Nat) (i : Nat) (s : Seed)
    (hi : i ∈ ids) (hg : q.get? i = some s) : (i, s) ∈ fetchSeeds q ids := by
  unfold fetchSeeds
  exact List.mem_filterMap.mpr ⟨i, hi, by rw [hg]; rfl⟩

/-- Fetching from a strictly increasing id list yields pairs with strictly
increasing first components. -/
theorem fetchSeeds_pairwise (q : List Seed) (ids : List Nat)
    (h : ids.Pairwise (· < ·)) :
    (fetchSeeds q ids).Pairwise (fun a b => a.1 < b.1) := by
  unfold fetchSeeds
  refine List.Pairwise.filterMap _ (fun a b hab x hx y hy => ?_) h
  rcases Option.map_eq_some'.mp (Option.mem_def.mp hx) with ⟨s, _, rfl⟩
  rcases Option.map_eq_some'.mp (Option.mem_def.mp hy) with ⟨t, _, rfl⟩
  exact hab

/-- Cell lookup after marking one position favored. -/
theorem markAt_get? (q : List Seed) : ∀ (i k : Nat),
    (markAt q i).get? k =
      if k = i then (q.get? k).map Seed.mark_favored else q.get? k := by
  induction q with
  | nil =>
      intro i k
      show (([] : List Seed)).get? k = _
      split <;> rfl
  | cons s t ih =>
      intro i k
      cases i with
      | zero =>
          cases k with
          | zero => rfl
          | succ k' => simp [markAt]
      | succ i' =>
          cases k with
          | zero => simp [markAt]
          | succ k' =>
              show (markAt t i').get? k' = _
              rw [ih i' k']
              by_cases hk : k' = i'
              · rw [if_pos hk, if_pos (by omega)]
                rfl
              · rw [if_neg hk, if_neg (by omega)]
                rfl

/-- Marking a position favored only changes favored flags. -/
theorem markAt_agrees (queue q : List Seed) (i : Nat)
    (h : agreesExceptFavored queue q) :
    agreesExceptFavored queue (markAt q i) := by
  intro k
  rw [markAt_get? q i k]
  by_cases hk : k = i
  · rw [if_pos hk, Option.map_map]
    have hcomp : Seed.unmark_favored ∘ Seed.mark_favored =
        Seed.unmark_favored := funext fun s => rfl
    rw [hcomp]
    exact h k
  · rw [if_neg hk]
    exact h k

/-- The head of the stable sort is the first element of minimal key. -/
theorem sortByKey_head {α : Type} (key : α → Rat) (l : List α) :
    (sortByKey key l).head? = firstMinByKey key l := by
  induction l with
  | nil => rfl
  | cons x xs ih =>
      show (insertByKey key x (sortByKey key xs)).head? = _
      rw [firstMinByKey]
      cases h : sortByKey key xs with
      | nil =>
          rw [← ih, h]
          simp [insertByKey]
      | cons y ys =>
          rw [← ih, h]
          by_cases hk : key y < key x <;> simp [insertByKey, hk]

/-- The minimum search fails exactly on the empty list. -/
theorem firstMinByKey_eq_none {α : Type} (key : α → Rat) (l : List α) :
    firstMinByKey key l = none ↔ l = [] := by
  cases l with
  | nil => simp [firstMinByKey]
  | cons x xs =>
      rw [firstMinByKey]
      cases h : firstMinByKey key xs with
      | none => simp
      | some m => by_cases hk : key m < key x <;> simp [hk]

/-- The found minimum is an element of the list. -/
theorem firstMinByKey_mem {α : Type} (key : α → Rat) :
    ∀ (l : List α) (m : α), firstMinByKey key l = some m → m ∈ l := by
  intro l
  induction l with
  | nil => intro m h; cases h
  | cons x xs ih =>
      intro m h
      rw [firstMinByKey] at h
      cases hf : firstMinByKey key xs with
      | none =>
          rw [hf] at h
          obtain rfl := Option.some.inj h
          exact List.mem_cons_self x xs
      | some m' =>
          rw [hf] at h
          dsimp only at h
          by_cases hk : key m' < key x
          · rw [if_pos hk] at h
            obtain rfl := Option.some.inj h
            exact List.mem_cons_of_mem x (ih _ hf)
          · rw [if_neg hk] at h
            obtain rfl := Option.some.inj h
            exact List.mem_cons_self x xs

/-- On a list whose `idx` projections are strictly increasing, the first
minimum is lexicographically minimal for `(key, idx)`. -/
theorem firstMinByKey_lex {α : Type} (key : α → Rat) (idx : α → Nat) :
    ∀ (l : List α), l.Pairwise (fun a b => idx a < idx b) →
      ∀ m, firstMinByKey key l = some m →
        ∀ p ∈ l, key m < key p ∨ (key m = key p ∧ idx m ≤ idx p) := by
  intro l
  induction l with
  | nil => intro _ m h; cases h
  | cons x xs ih =>
      intro hp m h p hmem
      have hpx : ∀ b ∈ xs, idx x < idx b := (List.pairwise_cons.mp hp).1
      have hpxs := (List.pairwise_cons.mp hp).2
      rw [firstMinByKey] at h
      cases hf : firstMinByKey key xs with
      | none =>
          rw [hf] at h
          have hxs : xs = [] := (firstMinByKey_eq_none key xs).mp hf
          subst hxs
          obtain rfl := Option.some.inj h
          rcases List.mem_singleton.mp hmem with rfl
          exact Or.inr ⟨rfl, le_refl _⟩
      | some m' =>
          rw [hf] at h
          dsimp only at h
          by_cases hk : key m' < key x
          · rw [if_pos hk] at h
            obtain rfl := Option.some.inj h
            rcases List.mem_cons.mp hmem with rfl | hmem'
            · exact Or.inl hk
            · exact ih hpxs _ hf p hmem'
          · rw [if_neg hk] at h
            obtain rfl := Option.some.inj h
            have hxm : key x ≤ key m' := le_of_not_lt hk
            rcases List.mem_cons.mp hmem with rfl | hmem'
            · exact Or.inr ⟨rfl, le_refl _⟩
            · rcases ih hpxs m' hf p hmem' with h1 | ⟨h1, _⟩
              · exact Or.inl (lt_of_le_of_lt hxm h1)
              · rcases lt_or_eq_of_le hxm with h2 | h2
                · exact Or.inl (h1 ▸ h2)
                · exact Or.inr ⟨h2.trans h1, le_of_lt (hpx p hmem')⟩

/-- The first minimum depends only on the projection `f` of the elements,
provided the key factors through `f`. -/
theorem firstMinByKey_congr {α β : Type} (key : α → Rat) (f : α → β)
    (g : β → Rat) (hkey : ∀ a, key a = g (f a)) :
    ∀ (l l' : List α), l.map f = l'.map f →
      (firstMinByKey key l).map f = (firstMinByKey key l').map f := by
  intro l
  induction l with
  | nil =>
      intro l' h
      cases l' with
      | nil => rfl
      | cons y ys => simp at h
  | cons x xs ih =>
      intro l' h
      cases l' with
      | nil => simp at h
      | cons y ys =>
          simp only [List.map_cons, List.cons.injEq] at h
          have ihh := ih ys h.2
          rw [firstMinByKey, firstMinByKey]
          cases h1 : firstMinByKey key xs with
          | none =>
              have h2 : firstMinByKey key ys = none := by
                cases h2 : firstMinByKey key ys with
                | none => rfl
                | some m' => rw [h1, h2] at ihh; simp at ihh
              rw [h2]
              dsimp only
              simpa using h.1
          | some m =>
              cases h2 : firstMinByKey key ys with
              | none => rw [h1, h2] at ihh; simp at ihh
              | some m' =>
                  rw [h1, h2] at ihh
                  have hfm : f m = f m' := by simpa using ihh
                  have hkm : key m = key m' := by rw [hkey m, hkey m', hfm]
                  have hkx : key x = key y := by rw [hkey x, hkey y, h.1]
                  dsimp only
                  by_cases hk : key m < key x
                  · rw [if_pos hk, if_pos (by rw [← hkm, ← hkx]; exact hk)]
                    simpa using hfm
                  · rw [if_neg hk, if_neg (by rw [← hkm, ← hkx]; exact hk)]
                    simpa using h.1

/-- `favorEdge` marks the position selected by `chosenIdx` (the head of the
stable sort is the first minimum). -/
theorem favorEdge_eq (q : List Seed) (ids : List Nat) :
    favorEdge q ids = match chosenIdx q ids with
      | none => q
      | some i => markAt q i := by
  unfold favorEdge chosenIdx
  rw [sortByKey_head]
  cases h : firstMinByKey (fun p => p.2.get_valuation) (fetchSeeds q ids) <;>
    rfl

/-- The selected position only depends on the queue through valuations, so
favored flags accumulated along the pass do not influence it. -/
theorem chosenIdx_congr (q q' : List Seed) (h : agreesExceptFavored q q')
    (ids : List Nat) : chosenIdx q ids = chosenIdx q' ids := by
  have hmap : (fetchSeeds q ids).map (fun p => (p.1, p.2.get_valuation)) =
      (fetchSeeds q' ids).map (fun p => (p.1, p.2.get_valuation)) := by
    unfold fetchSeeds
    rw [List.map_filterMap, List.map_filterMap]
    congr 1
    funext i
    have hk := h i
    cases hq : q.get? i with
    | none =>
        cases hq' : q'.get? i with
        | none => rfl
        | some s' => rw [hq, hq'] at hk; simp at hk
    | some s =>
        cases hq' : q'.get? i with
        | none => rw [hq, hq'] at hk; simp at hk
        | some s' =>
            rw [hq, hq'] at hk
            have hu : s.unmark_favored = s'.unmark_favored := by simpa using hk
            have hv0 := congrArg Seed.get_valuation hu
            have hv : s.get_valuation = s'.get_valuation := hv0
            simp [hv]
  have hcg := firstMinByKey_congr (fun p : Nat × Seed => p.2.get_valuation)
    (fun p => (p.1, p.2.get_valuation)) Prod.snd (fun a => rfl)
    (fetchSeeds q ids) (fetchSeeds q' ids) hmap
  have h2 := congrArg (Option.map Prod.fst) hcg
  unfold chosenIdx
  simpa [Option.map_map, Function.comp] using h2

/-- On a non-empty valid id list the pass always selects a position. -/
theorem chosenIdx_isSome (q : List Seed) (ids : List Nat) (hne : ids ≠ [])
    (hval : ∀ i ∈ ids, i < q.length) : ∃ k, chosenIdx q ids = some k := by
  unfold chosenIdx
  have hfne : fetchSeeds q ids ≠ [] := by
    cases ids with
    | nil => exact absurd rfl hne
    | cons i rest =>
        have hi : i < q.length := hval i (List.mem_cons_self i rest)
        obtain ⟨s, hs⟩ : ∃ s, q.get? i = some s := by
          rw [List.get?_eq_get hi]; exact ⟨_, rfl⟩
        unfold fetchSeeds
        rw [List.filterMap_cons, hs]
        simp
  cases hfm : firstMinByKey (fun p => p.2.get_valuation)
      (fetchSeeds q ids) with
  | none => exact absurd ((firstMinByKey_eq_none _ _).mp hfm) hfne
  | some m => exact ⟨m.1, rfl⟩

/-- The selected position is the `(valuation, id)`-minimal listed position,
provided the list is valid and strictly increasing. -/
theorem chosenIdx_isLexMin (q : List Seed) (ids : List Nat)
    (hval : ∀ i ∈ ids, i < q.length) (hsort : ids.Pairwise (· < ·))
    (k : Nat) (h : chosenIdx q ids = some k) : IsLexMinFor q k ids := by
  unfold chosenIdx at h
  cases hfm : firstMinByKey (fun p => p.2.get_valuation)
      (fetchSeeds q ids) with
  | none => rw [hfm] at h; cases h
  | some m =>
      rw [hfm] at h
      obtain rfl := Option.some.inj h
      have hmem := firstMinByKey_mem _ _ _ hfm
      have hmem' := fetchSeeds_mem_spec q ids m hmem
      refine ⟨hmem'.1, fun j hj => ?_⟩
      have hjl : j < q.length := hval j hj
      obtain ⟨t, ht⟩ : ∃ t, q.get? j = some t := by
        rw [List.get?_eq_get hjl]; exact ⟨_, rfl⟩
      have hpj : (j, t) ∈ fetchSeeds q ids := mem_fetchSeeds q ids j t hj ht
      have hpw := fetchSeeds_pairwise q ids hsort
      have hlex := firstMinByKey_lex (fun p : Nat × Seed => p.2.get_valuation)
        (fun p => p.1) (fetchSeeds q ids) hpw m hfm (j, t) hpj
      have hv1 : valAt q m.1 = m.2.get_valuation := by
        unfold valAt; rw [hmem'.2]; rfl
      have hv2 : valAt q j = t.get_valuation := by
        unfold valAt; rw [ht]; rfl
      rcases hlex with h1 | ⟨h1, h2⟩
      · left; rw [hv1, hv2]; exact h1
      · right; exact ⟨by rw [hv1, hv2]; exact h1, h2⟩

/-- Lexicographic minima are unique. -/
theorem isLexMin_unique (q : List Seed) (ids : List Nat) (k k' : Nat)
    (h1 : IsLexMinFor q k ids) (h2 : IsLexMinFor q k' ids) : k = k' := by
  rcases h1 with ⟨hm1, hall1⟩
  rcases h2 with ⟨hm2, hall2⟩
  rcases hall1 k' hm2 with ha | ⟨hae, hal⟩ <;>
    rcases hall2 k hm1 with hb | ⟨hbe, hbl⟩
  · exact absurd (ha.trans hb) (lt_irrefl _)
  · exact absurd (hbe ▸ ha) (lt_irrefl _)
  · exact absurd (hae ▸ hb) (lt_irrefl _)
  · exact le_antisymm hal hbl

/-- A lexicographically minimal listed position is the selected one. -/
theorem chosenIdx_of_isLexMin (q : List Seed) (ids : List Nat)
    (hval : ∀ i ∈ ids, i < q.length) (hsort : ids.Pairwise (· < ·))
    (k : Nat) (h : IsLexMinFor q k ids) : chosenIdx q ids = some k := by
  have hne : ids ≠ [] := by
    intro he
    rw [he] at h
    exact absurd h.1 (List.not_mem_nil k)
  obtain ⟨k', hk'⟩ := chosenIdx_isSome q ids hne hval
  have hlex := chosenIdx_isLexMin q ids hval hsort k' hk'
  rw [hk']
  exact congrArg some (isLexMin_unique q ids k' k hlex h)

/-- Folding `favorEdge` over index entries: fields other than favored are
preserved and a position ends favored exactly when it was already favored in
the accumulator or is the `(valuation, id)`-minimum of a processed entry. -/
theorem favorEdge_foldl_spec (entries : List (Nat × List Nat)) :
    ∀ (queue : List Seed),
      (∀ p ∈ entries, ∀ i ∈ p.2, i < queue.length) →
      (∀ p ∈ entries, p.2.Pairwise (· < ·)) →
      ∀ q : List Seed, agreesExceptFavored queue q →
      agreesExceptFavored queue
        (entries.foldl (fun q e => favorEdge q e.2) q) ∧
      ∀ k s, (entries.foldl (fun q e => favorEdge q e.2) q).get? k = some s →
        (s.favored = true ↔
          ((q.get? k).map Seed.favored = some true) ∨
          ∃ p ∈ entries, IsLexMinFor queue k p.2) := by
  induction entries with
  | nil =>
      intro queue hval hsort q hq
      refine ⟨hq, fun k s hs => ?_⟩
      rw [List.foldl_nil] at hs
      constructor
      · intro h1
        left
        rw [hs]
        show some s.favored = some true
        rw [h1]
      · rintro (h1 | ⟨p, hp, _⟩)
        · rw [hs] at h1
          exact Option.some.inj h1
        · exact absurd hp (List.not_mem_nil p)
  | cons e rest ih =>
      intro queue hval hsort q hq
      rw [List.foldl_cons]
      have hvale : ∀ i ∈ e.2, i < queue.length :=
        hval e (List.mem_cons_self e rest)
      have hsorte := hsort e (List.mem_cons_self e rest)
      have hvalrest : ∀ p ∈ rest, ∀ i ∈ p.2, i < queue.length :=
        fun p hp => hval p (List.mem_cons_of_mem e hp)
      have hsortrest : ∀ p ∈ rest, p.2.Pairwise (· < ·) :=
        fun p hp => hsort p (List.mem_cons_of_mem e hp)
      cases hch : chosenIdx queue e.2 with
      | none =>
          have he : e.2 = [] := by
            by_contra hne
            obtain ⟨k, hk⟩ := chosenIdx_isSome queue e.2 hne hvale
            rw [hch] at hk
            cases hk
          have hfe : favorEdge q e.2 = q := by rw [he]; rfl
          rw [hfe]
          obtain ⟨hag, hiff⟩ := ih queue hvalrest hsortrest q hq
          refine ⟨hag, fun k s hs => ?_⟩
          rw [hiff k s hs]
          constructor
          · rintro (h1 | ⟨p, hp, hl⟩)
            · exact Or.inl h1
            · exact Or.inr ⟨p, List.mem_cons_of_mem e hp, hl⟩
          · rintro (h1 | ⟨p, hp, hl⟩)
            · exact Or.inl h1
            · rcases List.mem_cons.mp hp with rfl | hp'
              · exact absurd hl.1 (by rw [he]; exact List.not_mem_nil k)
              · exact Or.inr ⟨p, hp', hl⟩
      | some i =>
          have hlex : IsLexMinFor queue i e.2 :=
            chosenIdx_isLexMin queue e.2 hvale hsorte i hch
          have hfe : favorEdge q e.2 = markAt q i := by
            rw [favorEdge_eq, ← chosenIdx_congr queue q hq e.2, hch]
          rw [hfe]
          have hq' : agreesExceptFavored queue (markAt q i) :=
            markAt_agrees queue q i hq
          obtain ⟨hag, hiff⟩ := ih queue hvalrest hsortrest (markAt q i) hq'
          refine ⟨hag, fun k s hs => ?_⟩
          rw [hiff k s hs, markAt_get? q i k]
          by_cases hk : k = i
          · subst hk
            have hlen : k < queue.length := hvale k hlex.1
            obtain ⟨t, ht⟩ : ∃ t, q.get? k = some t := by
              have hqk := hq k
              rw [List.get?_eq_get hlen] at hqk
              cases hqk' : q.get? k with
              | none => rw [hqk'] at hqk; simp at hqk
              | some t => exact ⟨t, rfl⟩
            have hL : ((q.get? k).map Seed.mark_favored).map Seed.favored =
                some true := by rw [ht]; rfl
            rw [if_pos rfl]
            constructor
            · intro _
              exact Or.inr ⟨e, List.mem_cons_self e rest, hlex⟩
            · intro _
              exact Or.inl hL
          · rw [if_neg hk]
            constructor
            · rintro (h1 | ⟨p, hp, hl⟩)
              · exact Or.inl h1
              · exact Or.inr ⟨p, List.mem_cons_of_mem e hp, hl⟩
            · rintro (h1 | ⟨p, hp, hl⟩)
              · exact Or.inl h1
              · rcases List.mem_cons.mp hp with rfl | hp'
                · have hck :=
                    chosenIdx_of_isLexMin queue p.2 hvale hsorte k hl
                  rw [hch] at hck
                  exact absurd (Option.some.inj hck).symm hk
                · exact Or.inr ⟨p, hp', hl⟩

/-- Master specification of `update_favored_seeds`: all fields except
favored are preserved, and a queue position ends favored exactly when it is
the `(valuation, id)`-minimal covering position of some index entry. -/
theorem update_favored_seeds_spec (queue : List Seed)
    (index : List (Nat × List Nat))
    (hval : ∀ p ∈ index, ∀ i ∈ p.2, i < queue.length)
    (hsort : ∀ p ∈ index, p.2.Pairwise (· < ·)) :
    agreesExceptFavored queue (update_favored_seeds queue index) ∧
    ∀ k s, (update_favored_seeds queue index).get? k = some s →
      (s.favored = true ↔ ∃ p ∈ index, IsLexMinFor queue k p.2) := by
  have hq0 : agreesExceptFavored queue (queue.map Seed.unmark_favored) := by
    intro k
    rw [List.get?_map]
    cases queue.get? k <;> rfl
  obtain ⟨hag, hiff⟩ :=
    favorEdge_foldl_spec index queue hval hsort
      (queue.map Seed.unmark_favored) hq0
  refine ⟨hag, fun k s hs => ?_⟩
  rw [hiff k s hs]
  have hnf : ((queue.map Seed.unmark_favored).get? k).map Seed.favored ≠
      some true := by
    rw [List.get?_map]
    cases queue.get? k with
    | none => simp
    | some t => simp [Seed.unmark_favored]
  constructor
  · rintro (h1 | h2)
    · exact absurd h1 hnf
    · exact h2
  · intro h2
    exact Or.inr h2

/-- A call over an empty queue selects nothing and leaves the state
unchanged. -/
theorem sched_step_empty (c : SchedCall) (used : Finset Nat) (cyc : Nat)
    (h : c.queue = []) : sched_step c used cyc = ⟨none, used, cyc, false⟩ := by
  unfold sched_step select_next_seed
  rw [if_pos h]

/-- At a cycle boundary the new-cycle flag is raised, the cycle seed count
becomes the current queue length, and the used set is the cleared set plus
the selected id. -/
theorem sched_step_boundary (c : SchedCall) (used : Finset Nat) (cyc : Nat)
    (hne : c.queue ≠ []) (hb : cyc ≤ used.card) :
    (sched_step c used cyc).new_cycle = true ∧
    (sched_step c used cyc).cyc = c.queue.length ∧
    ∀ s, (sched_step c used cyc).selected = some s →
      (sched_step c used cyc).used = {s.seed_id} := by
  unfold sched_step select_next_seed
  rw [if_neg hne, if_pos hb]
  dsimp only
  split
  · exact ⟨rfl, rfl, fun s hs => by cases hs⟩
  · next s hget =>
      refine ⟨rfl, rfl, fun t ht => ?_⟩
      obtain rfl := Option.some.inj ht
      simp

/-- Inside a cycle the new-cycle flag stays down, the cycle seed count is
unchanged, and the selected seed id is fresh and gets added to the used
set. -/
theorem sched_step_in_cycle (c : SchedCall) (used : Finset Nat) (cyc : Nat)
    (hne : c.queue ≠ []) (hb : ¬ cyc ≤ used.card) :
    (sched_step c used cyc).new_cycle = false ∧
    (sched_step c used cyc).cyc = cyc ∧
    ((sched_step c used cyc).selected = none →
      (sched_step c used cyc).used = used) ∧
    ∀ s, (sched_step c used cyc).selected = some s →
      s.seed_id ∉ used ∧
      (sched_step c used cyc).used = insert s.seed_id used := by
  unfold sched_step select_next_seed
  rw [if_neg hne, if_neg hb]
  dsimp only
  split
  · exact ⟨rfl, rfl, fun _ => rfl, fun s hs => by cases hs⟩
  · next s hget =>
      refine ⟨rfl, rfl, ?_, ?_⟩
      · intro h
        cases h
      intro t ht
      obtain rfl := Option.some.inj ht
      have hmem : s ∈ c.queue.filter (fun s => s.seed_id ∉ used) := by
        by_cases hfav : ((c.queue.filter (fun s => s.seed_id ∉ used)).filter
            (fun s => s.favored) ≠ [] ∧ c.coin = true)
        · rw [if_pos hfav] at hget
          have := List.get?_mem hget
          exact List.mem_of_mem_filter this
        · rw [if_neg hfav] at hget
          exact List.get?_mem hget
      have hid := (List.mem_filter.mp hmem).2
      simp only [decide_eq_true_eq] at hid
      exact ⟨hid, rfl⟩

/-- On a non-empty queue of distinct ids, with the cycle seed count bounded
by the queue length whenever the cycle is unfinished, a call always selects
a seed (the pool `random.choice` draws from is never empty). -/
theorem sched_step_some (c : SchedCall) (used : Finset Nat) (cyc : Nat)
    (hne : c.queue ≠ []) (hnd : (c.queue.map Seed.seed_id).Nodup)
    (hcyc : used.card < cyc → cyc ≤ c.queue.length) :
    ∃ s, (sched_step c used cyc).selected = some s := by
  unfold sched_step select_next_seed
  rw [if_neg hne]
  by_cases hb : cyc ≤ used.card
  · rw [if_pos hb]
    dsimp only
    have hunused : c.queue.filter (fun s => s.seed_id ∉ (∅ : Finset Nat)) ≠
        [] := by
      have hfq : c.queue.filter (fun s => s.seed_id ∉ (∅ : Finset Nat)) =
          c.queue := List.filter_eq_self.mpr (fun a _ => by simp)
      rw [hfq]
      exact hne
    have hpool : (if (c.queue.filter
          (fun s => s.seed_id ∉ (∅ : Finset Nat))).filter
          (fun s => s.favored) ≠ [] ∧ c.coin = true then
        (c.queue.filter (fun s => s.seed_id ∉ (∅ : Finset Nat))).filter
          (fun s => s.favored)
        else c.queue.filter (fun s => s.seed_id ∉ (∅ : Finset Nat))) ≠ [] := by
      split
      · next hfav => exact hfav.1
      · exact hunused
    split
    · next hget =>
        have hlen := List.get?_eq_none.mp hget
        have hlt := Nat.mod_lt c.idx (List.length_pos.mpr hpool)
        omega
    · next s hget => exact ⟨s, rfl⟩
  · rw [if_neg hb]
    dsimp only
    have hunused : c.queue.filter (fun s => s.seed_id ∉ used) ≠ [] := by
      intro hempty
      have hall := List.filter_eq_nil.mp hempty
      have hsub : (c.queue.map Seed.seed_id).toFinset ⊆ used := by
        intro x hx
        rcases List.mem_map.mp (List.mem_toFinset.mp hx) with ⟨s, hs, rfl⟩
        have hans := hall s hs
        simp only [decide_eq_true_eq, not_not] at hans
        exact hans
      have hcard1 : (c.queue.map Seed.seed_id).toFinset.card =
          c.queue.length := by
        rw [List.toFinset_card_of_nodup hnd, List.length_map]
      have hcard2 := Finset.card_le_card hsub
      have := hcyc (by omega)
      omega
    have hpool : (if (c.queue.filter (fun s => s.seed_id ∉ used)).filter
          (fun s => s.favored) ≠ [] ∧ c.coin = true then
        (c.queue.filter (fun s => s.seed_id ∉ used)).filter
          (fun s => s.favored)
        else c.queue.filter (fun s => s.seed_id ∉ used)) ≠ [] := by
      split
      · next hfav => exact hfav.1
      · exact hunused
    split
    · next hget =>
        have hlen := List.get?_eq_none.mp hget
        have hlt := Nat.mod_lt c.idx (List.length_pos.mpr hpool)
        omega
    · next s hget => exact ⟨s, rfl⟩

/-- Unfolding one call of a scheduler trace. -/
theorem sched_trace_cons (c : SchedCall) (cs : List SchedCall)
    (used : Finset Nat) (cyc : Nat) :
    sched_trace (c :: cs) used cyc =
      sched_step c used cyc ::
        sched_trace cs (sched_step c used cyc).used
          (sched_step c used cyc).cyc := rfl

/-- A call returning no seed contributes no id to the trace. -/
theorem trace_ids_cons_none (r : SchedResult) (rs : List SchedResult)
    (h : r.selected = none) : trace_ids (r :: rs) = trace_ids rs := by
  unfold trace_ids
  rw [List.filterMap_cons, h]
  rfl

/-- A call returning a seed contributes its id to the trace. -/
theorem trace_ids_cons_some (r : SchedResult) (rs : List SchedResult)
    (s : Seed) (h : r.selected = some s) :
    trace_ids (r :: rs) = s.seed_id :: trace_ids rs := by
  unfold trace_ids
  rw [List.filterMap_cons, h]
  rfl

/-- Along a trace in which no call signals a new cycle, the returned seed
ids are pairwise distinct and disjoint from the initial used set. -/
theorem sched_trace_no_cycle (calls : List SchedCall) :
    ∀ (used : Finset Nat) (cyc : Nat),
      (∀ r ∈ sched_trace calls used cyc, r.new_cycle = false) →
      (trace_ids (sched_trace calls used cyc)).Nodup ∧
      ∀ n ∈ trace_ids (sched_trace calls used cyc), n ∉ used := by
  induction calls with
  | nil =>
      intro used cyc _
      exact ⟨List.nodup_nil, fun n hn => absurd hn (List.not_mem_nil n)⟩
  | cons c cs ih =>
      intro used cyc hall
      have hr0 : (sched_step c used cyc).new_cycle = false :=
        hall _ (by rw [sched_trace_cons]; exact List.mem_cons_self _ _)
      have hrest : ∀ r ∈ sched_trace cs (sched_step c used cyc).used
          (sched_step c used cyc).cyc, r.new_cycle = false :=
        fun r hr =>
          hall r (by rw [sched_trace_cons]; exact List.mem_cons_of_mem _ hr)
      by_cases hq : c.queue = []
      · have hstep := sched_step_empty c used cyc hq
        have hsel : (sched_step c used cyc).selected = none := by rw [hstep]
        have hused : (sched_step c used cyc).used = used := by rw [hstep]
        have hcyc' : (sched_step c used cyc).cyc = cyc := by rw [hstep]
        rw [hused, hcyc'] at hrest
        rw [sched_trace_cons, trace_ids_cons_none _ _ hsel, hused, hcyc']
        exact ih used cyc hrest
      · have hb : ¬ cyc ≤ used.card := by
          intro hb
          have hbd := (sched_step_boundary c used cyc hq hb).1
          rw [hr0] at hbd
          cases hbd
        obtain ⟨hnc, hcyc', hnone, hsome⟩ :=
          sched_step_in_cycle c used cyc hq hb
        cases hsel : (sched_step c used cyc).selected with
        | none =>
            have hused := hnone hsel
            rw [hused, hcyc'] at hrest
            rw [sched_trace_cons, trace_ids_cons_none _ _ hsel, hused, hcyc']
            exact ih used cyc hrest
        | some s =>
            obtain ⟨hnotin, hused⟩ := hsome s hsel
            rw [hused, hcyc'] at hrest
            rw [sched_trace_cons, trace_ids_cons_some _ _ _ hsel, hused,
              hcyc']
            have hih := ih (insert s.seed_id used) cyc hrest
            constructor
            · refine List.nodup_cons.mpr ⟨?_, hih.1⟩
              intro hmem
              exact (hih.2 s.seed_id hmem) (Finset.mem_insert_self _ _)
            · intro n hn
              rcases List.mem_cons.mp hn with rfl | hn'
              · exact hnotin
              · intro hnin
                exact (hih.2 n hn') (Finset.mem_insert_of_mem hnin)

/-- Every call of a trace over non-empty distinct-id queues of
non-decreasing length, started with a cycle seed count bounded by the first
queue length, selects a seed. -/
theorem sched_trace_all_some (calls : List SchedCall) :
    ∀ (used : Finset Nat) (cyc : Nat),
      (∀ c ∈ calls, c.queue ≠ [] ∧ (c.queue.map Seed.seed_id).Nodup) →
      List.Chain' (fun a b => a.queue.length ≤ b.queue.length) calls →
      (∀ c, calls.head? = some c → used.card < cyc →
        cyc ≤ c.queue.length) →
      ∀ r ∈ sched_trace calls used cyc, r.selected.isSome := by
  induction calls with
  | nil => intro used cyc _ _ _ r hr; exact absurd hr (List.not_mem_nil r)
  | cons c cs ih =>
      intro used cyc hq hchain hfirst r hr
      have hc := hq c (List.mem_cons_self c cs)
      have hsome := sched_step_some c used cyc hc.1 hc.2 (hfirst c rfl)
      rw [sched_trace_cons] at hr
      rcases List.mem_cons.mp hr with rfl | hr'
      · obtain ⟨s, hs⟩ := hsome
        rw [hs]
        rfl
      · have hq' : ∀ c' ∈ cs, c'.queue ≠ [] ∧
            (c'.queue.map Seed.seed_id).Nodup :=
          fun c' h => hq c' (List.mem_cons_of_mem c h)
        have hchain' := (List.chain'_cons'.mp hchain).2
        have hfirst' : ∀ c', cs.head? = some c' →
            (sched_step c used cyc).used.card < (sched_step c used cyc).cyc →
            (sched_step c used cyc).cyc ≤ c'.queue.length := by
          intro c' hc' _
          have hlen : c.queue.length ≤ c'.queue.length :=
            (List.chain'_cons'.mp hchain).1 c' (Option.mem_def.mpr hc')
          by_cases hb : cyc ≤ used.card
          · have hcy := (sched_step_boundary c used cyc hc.1 hb).2.1
            rw [hcy]
            exact hlen
          · have hcy := (sched_step_in_cycle c used cyc hc.1 hb).2.1
            rw [hcy]
            exact le_trans (hfirst c rfl (by omega)) hlen
        exact ih (sched_step c used cyc).used (sched_step c used cyc).cyc hq'
          hchain' hfirst' r hr'

/-- C7: over any sequence of calls to `select_next_seed` on non-empty queues
of pairwise-distinct ids (non-decreasing in length, with the initial cycle
seed count bounded by the first queue length), threading the returned used
set and cycle count through the calls: every call returns a seed; between
consecutive new-cycle signals no seed id is returned twice; and a call is a
boundary (`new_cycle = True`) exactly when the used set has reached the
cycle seed count, in which case the used set is cleared (ending as just the
selected id) and the cycle seed count becomes the current queue length. -/
theorem c7_scheduler_cycle_properties (calls : List SchedCall)
    (used : Finset Nat) (cyc : Nat)
    (hq : ∀ c ∈ calls, c.queue ≠ [] ∧ (c.queue.map Seed.seed_id).Nodup)
    (hchain : List.Chain' (fun a b => a.queue.length ≤ b.queue.length) calls)
    (hfirst : ∀ c, calls.head? = some c → used.card < cyc →
      cyc ≤ c.queue.length) :
    (∀ r ∈ sched_trace calls used cyc, r.selected.isSome) ∧
    ((∀ r ∈ (sched_trace calls used cyc).tail, r.new_cycle = false) →
      (trace_ids (sched_trace calls used cyc)).Nodup) ∧
    (∀ (c : SchedCall) (u : Finset Nat) (n : Nat), c.queue ≠ [] →
      ((sched_step c u n).new_cycle = true ↔ n ≤ u.card) ∧
      (n ≤ u.card →
        (sched_step c u n).cyc = c.queue.length ∧
        ∀ s, (sched_step c u n).selected = some s →
          (sched_step c u n).used = {s.seed_id})) := by
  refine ⟨sched_trace_all_some calls used cyc hq hchain hfirst, ?_, ?_⟩
  · intro htail
    cases calls with
    | nil => exact List.nodup_nil
    | cons c cs =>
        have hc := hq c (List.mem_cons_self c cs)
        by_cases hb : cyc ≤ used.card
        · obtain ⟨s, hs⟩ := sched_step_some c used cyc hc.1 hc.2 (hfirst c rfl)
          have hused := (sched_step_boundary c used cyc hc.1 hb).2.2 s hs
          have hrest := sched_trace_no_cycle cs (sched_step c used cyc).used
            (sched_step c used cyc).cyc (fun r hr => htail r hr)
          rw [sched_trace_cons, trace_ids_cons_some _ _ _ hs]
          refine List.nodup_cons.mpr ⟨?_, hrest.1⟩
          intro hmem
          have hni := hrest.2 s.seed_id hmem
          rw [hused] at hni
          exact hni (Finset.mem_singleton_self _)
        · have hall : ∀ r ∈ sched_trace (c :: cs) used cyc,
              r.new_cycle = false := by
            intro r hr
            rw [sched_trace_cons] at hr
            rcases List.mem_cons.mp hr with rfl | hr'
            · exact (sched_step_in_cycle c used cyc hc.1 hb).1
            · exact htail r hr'
          exact (sched_trace_no_cycle (c :: cs) used cyc hall).1
  · intro c u n hcne
    constructor
    · constructor
      · intro hnc
        by_contra hb
        have hf := (sched_step_in_cycle c u n hcne hb).1
        rw [hnc] at hf
        cases hf
      · intro hb
        exact (sched_step_boundary c u n hcne hb).1
    · intro hb
      exact ⟨(sched_step_boundary c u n hcne hb).2.1,
             (sched_step_boundary c u n hcne hb).2.2⟩

/-- Witness for C7 at two concrete calls over a two-seed queue. -/
theorem c7_scheduler_cycle_properties_witness :
    ((∀ c ∈ c7Calls, c.queue ≠ [] ∧ (c.queue.map Seed.seed_id).Nodup) ∧
     List.Chain' (fun a b => a.queue.length ≤ b.queue.length) c7Calls ∧
     (∀ c, c7Calls.head? = some c → (∅ : Finset Nat).card < 2 →
        2 ≤ c.queue.length)) ∧
    ((∀ r ∈ sched_trace c7Calls ∅ 2, r.selected.isSome) ∧
     ((∀ r ∈ (sched_trace c7Calls ∅ 2).tail, r.new_cycle = false) →
       (trace_ids (sched_trace c7Calls ∅ 2)).Nodup) ∧
     (∀ (c : SchedCall) (u : Finset Nat) (n : Nat), c.queue ≠ [] →
       ((sched_step c u n).new_cycle = true ↔ n ≤ u.card) ∧
       (n ≤ u.card →
         (sched_step c u n).cyc = c.queue.length ∧
         ∀ s, (sched_step c u n).selected = some s →
           (sched_step c u n).used = {s.seed_id}))) := by
  have hfirst : ∀ c, c7Calls.head? = some c → (∅ : Finset Nat).card < 2 →
      2 ≤ c.queue.length := by
    intro c hc _
    obtain rfl := Option.some.inj hc
    decide
  have hchain : List.Chain' (fun a b : SchedCall =>
      a.queue.length ≤ b.queue.length) c7Calls := by
    unfold c7Calls
    rw [List.chain'_cons]
    exact ⟨by decide, List.chain'_singleton _⟩
  exact ⟨⟨by decide, hchain, hfirst⟩,
    c7_scheduler_cycle_properties c7Calls ∅ 2 (by decide) hchain hfirst⟩

/-- C5 (corrected): for every queue whose seed ids equal their positions and
every edge→seed index listing only valid ids, with each per-edge list in
increasing id order as the fuzzer maintains it, `update_favored_seeds`
preserves every field except favored (first unmarking every seed) and ends
with position `k` favored exactly when `k` is, for some edge, the covering
seed of smallest valuation with ties broken by lowest id; hence every seed
that is minimal for no edge ends the pass unfavored.  The increasing-order
hypothesis is necessary: without it ties go to the seed listed first. -/
theorem c5_update_favored_functional (queue : List Seed)
    (index : List (Nat × List Nat)) (_hpos : idsArePositions queue)
    (hval : ∀ p ∈ index, ∀ i ∈ p.2, i < queue.length)
    (hsort : ∀ p ∈ index, p.2.Pairwise (· < ·)) :
    (∀ k, ((update_favored_seeds queue index).get? k).map
        Seed.unmark_favored = (queue.get? k).map Seed.unmark_favored) ∧
    ∀ k s, (update_favored_seeds queue index).get? k = some s →
      (s.favored = true ↔ ∃ p ∈ index, IsLexMinFor queue k p.2) := by
  obtain ⟨hag, hiff⟩ := update_favored_seeds_spec queue index hval hsort
  exact ⟨fun k => (hag k).symm, hiff⟩

/-- Witness for C5 at a concrete two-seed queue and two-edge index. -/
theorem c5_update_favored_functional_witness :
    (idsArePositions c3Queue ∧
     (∀ p ∈ c3Index, ∀ i ∈ p.2, i < c3Queue.length) ∧
     (∀ p ∈ c3Index, p.2.Pairwise (· < ·))) ∧
    ((∀ k, ((update_favored_seeds c3Queue c3Index).get? k).map
        Seed.unmark_favored = (c3Queue.get? k).map Seed.unmark_favored) ∧
     ∀ k s, (update_favored_seeds c3Queue c3Index).get? k = some s →
       (s.favored = true ↔ ∃ p ∈ c3Index, IsLexMinFor c3Queue k p.2)) := by
  have hpos : idsArePositions c3Queue := by
    intro k s h
    rcases k with _ | _ | n
    · injection h with h2
      rw [← h2]
    · injection h with h2
      rw [← h2]
    · cases h
  have hval : ∀ p ∈ c3Index, ∀ i ∈ p.2, i < c3Queue.length := by decide
  have hsort : ∀ p ∈ c3Index, p.2.Pairwise (· < ·) := by decide
  exact ⟨⟨hpos, hval, hsort⟩,
    c5_update_favored_functional c3Queue c3Index hpos hval hsort⟩

/-- C5 counterexample: two seeds of equal valuation and an index whose only
entry lists the valid ids in the order `[1, 0]`.  The claim quantifies over
every index listing only valid ids and predicts the lowest-id tie, seed 0,
is marked favored; the code instead marks the seed listed first (Python
stable sort), so seed 1 ends favored although it is not the
`(valuation, id)`-minimal coverer, and seed 0 — which is — ends unfavored. -/
theorem c5_counterexample :
    (∀ k s, c5Queue.get? k = some s → s.seed_id = k) ∧
    (∀ p ∈ c5Index, ∀ i ∈ p.2, i < c5Queue.length) ∧
    (update_favored_seeds c5Queue c5Index).map Seed.favored =
      [false, true] ∧
    IsLexMinFor c5Queue 0 [1, 0] ∧ ¬ IsLexMinFor c5Queue 1 [1, 0] := by
  have hveq : (⟨"p0", 0, ∅, 1, 1, false⟩ : Seed).get_valuation =
      (⟨"p1", 1, ∅, 1, 1, false⟩ : Seed).get_valuation := rfl
  have hnlt : ¬ ((⟨"p0", 0, ∅, 1, 1, false⟩ : Seed).get_valuation <
      (⟨"p1", 1, ∅, 1, 1, false⟩ : Seed).get_valuation) := by
    rw [hveq]
    exact lt_irrefl _
  have hfetch : fetchSeeds c5Queue [1, 0] =
      [(1, ⟨"p1", 1, ∅, 1, 1, false⟩), (0, ⟨"p0", 0, ∅, 1, 1, false⟩)] := rfl
  have hfm : firstMinByKey (fun p : Nat × Seed => p.2.get_valuation)
      (fetchSeeds c5Queue [1, 0]) =
      some (1, ⟨"p1", 1, ∅, 1, 1, false⟩) := by
    rw [hfetch]
    simp only [firstMinByKey]
    rw [if_neg hnlt]
  have hchosen : chosenIdx c5Queue [1, 0] = some 1 := by
    unfold chosenIdx
    rw [hfm]
    rfl
  have hq0 : c5Queue.map Seed.unmark_favored = c5Queue := rfl
  have hupd : update_favored_seeds c5Queue c5Index = markAt c5Queue 1 := by
    show List.foldl (fun q entry => favorEdge q entry.2)
      (c5Queue.map Seed.unmark_favored) c5Index = _
    rw [hq0]
    show favorEdge c5Queue [1, 0] = _
    rw [favorEdge_eq, hchosen]
  refine ⟨?_, by decide, by rw [hupd]; rfl, ?_, ?_⟩
  · intro k s h
    rcases k with _ | _ | n
    · injection h with h2
      rw [← h2]
    · injection h with h2
      rw [← h2]
    · cases h
  · refine ⟨by decide, fun j hj => ?_⟩
    rcases List.mem_cons.mp hj with rfl | hj'
    · exact Or.inr ⟨rfl, by omega⟩
    · rcases List.mem_singleton.mp hj' with rfl
      exact Or.inr ⟨rfl, le_refl 0⟩
  · rintro ⟨_, hall⟩
    rcases hall 0 (by decide) with hlt | ⟨_, hle⟩
    · exact lt_irrefl _ hlt
    · omega

/-- C3 (corrected): after a favored-recomputation pass, every edge of the
index with at least one covering seed has its `(valuation, id)`-minimal
covering seed favored — so at least one of its covering seeds is favored —
but not exactly one in general, since another listed coverer can be favored
on behalf of a different edge. -/
theorem c3_covered_edges_have_favored (queue : List Seed)
    (index : List (Nat × List Nat))
    (hval : ∀ p ∈ index, ∀ i ∈ p.2, i < queue.length)
    (hsort : ∀ p ∈ index, p.2.Pairwise (· < ·)) :
    ∀ p ∈ index, p.2 ≠ [] →
      ∃ k s, IsLexMinFor queue k p.2 ∧
        (update_favored_seeds queue index).get? k = some s ∧
        s.favored = true := by
  intro p hp hne
  obtain ⟨k, hk⟩ := chosenIdx_isSome queue p.2 hne (hval p hp)
  have hlex := chosenIdx_isLexMin queue p.2 (hval p hp) (hsort p hp) k hk
  have hklen : k < queue.length := (hval p hp) k hlex.1
  obtain ⟨hag, hiff⟩ := update_favored_seeds_spec queue index hval hsort
  obtain ⟨s, hs⟩ : ∃ s, (update_favored_seeds queue index).get? k = some s := by
    have hagk := hag k
    rw [List.get?_eq_get hklen] at hagk
    cases hres : (update_favored_seeds queue index).get? k with
    | none => rw [hres] at hagk; simp at hagk
    | some s => exact ⟨s, rfl⟩
  exact ⟨k, s, hlex, hs, (hiff k s hs).mpr ⟨p, hp, hlex⟩⟩

/-- Witness for C3 at a concrete two-seed queue and two-edge index. -/
theorem c3_covered_edges_have_favored_witness :
    ((∀ p ∈ c3Index, ∀ i ∈ p.2, i < c3Queue.length) ∧
     (∀ p ∈ c3Index, p.2.Pairwise (· < ·))) ∧
    (∀ p ∈ c3Index, p.2 ≠ [] →
      ∃ k s, IsLexMinFor c3Queue k p.2 ∧
        (update_favored_seeds c3Queue c3Index).get? k = some s ∧
        s.favored = true) :=
  ⟨⟨by decide, by decide⟩,
   c3_covered_edges_have_favored c3Queue c3Index (by decide) (by decide)⟩

/-- C3 counterexample: edge 100 is covered by queue positions 0 and 1, and
after the pass both covering seeds are favored (seed 0 as the minimum on
edge 100, seed 1 as the only coverer of edge 200), refuting the claim that
exactly one of the covering seeds of each covered edge is favored. -/
theorem c3_counterexample :
    (100, [0, 1]) ∈ c3Index ∧
    ((update_favored_seeds c3Queue c3Index).get? 0).map Seed.favored =
      some true ∧
    ((update_favored_seeds c3Queue c3Index).get? 1).map Seed.favored =
      some true := by
  obtain ⟨hag, hiff⟩ :=
    update_favored_seeds_spec c3Queue c3Index (by decide) (by decide)
  have hlex0 : IsLexMinFor c3Queue 0 [0, 1] := by
    refine ⟨by decide, fun j hj => ?_⟩
    rcases List.mem_cons.mp hj with rfl | hj'
    · exact Or.inr ⟨rfl, le_refl 0⟩
    · rcases List.mem_singleton.mp hj' with rfl
      left
      show (1 : Rat) * ((1 : Nat) : Rat) < (2 : Rat) * ((1 : Nat) : Rat)
      norm_num
  have hlex1 : IsLexMinFor c3Queue 1 [1] := by
    refine ⟨List.mem_singleton.mpr rfl, fun j hj => ?_⟩
    rcases List.mem_singleton.mp hj with rfl
    exact Or.inr ⟨rfl, le_refl 1⟩
  obtain ⟨s0, hs0⟩ : ∃ s, (update_favored_seeds c3Queue c3Index).get? 0 =
      some s := by
    have hagk := hag 0
    rw [List.get?_eq_get (by decide : 0 < c3Queue.length)] at hagk
    cases hq : (update_favored_seeds c3Queue c3Index).get? 0 with
    | none => rw [hq] at hagk; simp at hagk
    | some s => exact ⟨s, rfl⟩
  obtain ⟨s1, hs1⟩ : ∃ s, (update_favored_seeds c3Queue c3Index).get? 1 =
      some s := by
    have hagk := hag 1
    rw [List.get?_eq_get (by decide : 1 < c3Queue.length)] at hagk
    cases hq : (update_favored_seeds c3Queue c3Index).get? 1 with
    | none => rw [hq] at hagk; simp at hagk
    | some s => exact ⟨s, rfl⟩
  refine ⟨by decide, ?_, ?_⟩
  · rw [hs0]
    show some s0.favored = some true
    rw [(hiff 0 s0 hs0).mpr ⟨(100, [0, 1]), by decide, hlex0⟩]
  · rw [hs1]
    show some s1.favored = some true
    rw [(hiff 1 s1 hs1).mpr ⟨(200, [1]), by decide, hlex1⟩]

/-- C8: `check_crash` returns `True` exactly when the low 7 bits of the
status are one of the fifteen recognised crash signals or the core-dump bit
0x80 is set; in particular status 139 classifies as a crash and status 0
does not. -/
theorem c8_check_crash_characterisation :
    (∀ status_code : Nat,
      check_crash status_code = true ↔
        ((status_code &&& 0x7f) ∈ crash_signals ∨ status_code &&& 0x80 ≠ 0)) ∧
    check_crash 139 = true ∧ check_crash 0 = false := by
  refine ⟨fun s => ?_, by decide, by decide⟩
  simp [check_crash]

/-- C9: `get_power_schedule` always returns a mutation count between 1 and
1000, for any seed with non-negative execution time and any average
execution time. -/
theorem c9_power_schedule_bounds (seed : Seed) (avg_exec_time : Rat)
    (_hexec : 0 ≤ seed.exec_time) :
    1 ≤ get_power_schedule seed avg_exec_time ∧
    get_power_schedule seed avg_exec_time ≤ 1000 := by
  unfold get_power_schedule
  refine ⟨le_max_right _ _, max_le (min_le_right _ _) (by norm_num)⟩

/-- Witness for C9 at a concrete seed and average. -/
theorem c9_power_schedule_bounds_witness :
    (0 : Rat) ≤ (⟨"s", 0, ∅, 1, 4, false⟩ : Seed).exec_time ∧
    (1 ≤ get_power_schedule ⟨"s", 0, ∅, 1, 4, false⟩ 2 ∧
     get_power_schedule ⟨"s", 0, ∅, 1, 4, false⟩ 2 ≤ 1000) :=
  ⟨by decide, c9_power_schedule_bounds ⟨"s", 0, ∅, 1, 4, false⟩ 2 (by decide)⟩

/-- C10: when the seed file is shorter than 8 bytes, `HavocMutator.mutate`
returns before mutating and never writes `current_input`, so `current_input`
keeps its previous contents byte for byte, across every run of the seed
mutation budget that invokes havoc. -/
theorem c10_short_seed_havoc_noop (dict : List (List Nat))
    (ops : List HavocOp) (steps : List (List HavocOp)) (data prev : List Nat)
    (hshort : data.length < 8) :
    havoc_mutate dict ops data = none ∧
    current_after_havoc prev dict ops data = prev ∧
    current_after_havoc_runs prev dict steps data = prev := by
  have hnone : ∀ ops0 : List HavocOp, havoc_mutate dict ops0 data = none := by
    intro ops0; unfold havoc_mutate; simp [hshort]
  refine ⟨hnone ops, ?_, ?_⟩
  · unfold current_after_havoc; rw [hnone ops]
  · induction steps with
    | nil => rfl
    | cons s t ih =>
        unfold current_after_havoc_runs at *
        simpa [current_after_havoc, hnone s] using ih

/-- Witness for C10 at a 5-byte seed file. -/
theorem c10_short_seed_havoc_noop_witness :
    ([0, 1, 2, 3, 4] : List Nat).length < 8 ∧
    (havoc_mutate [] c4ops [0, 1, 2, 3, 4] = none ∧
     current_after_havoc [7] [] c4ops [0, 1, 2, 3, 4] = [7] ∧
     current_after_havoc_runs [7] [] [c4ops, c4ops] [0, 1, 2, 3, 4] = [7]) :=
  ⟨by decide,
   c10_short_seed_havoc_noop [] c4ops [c4ops, c4ops] [0, 1, 2, 3, 4] [7]
     (by decide)⟩

/-- C6: a run whose status equals the timeout sentinel 9 is skipped, in the
dry run and in the fuzzing loop, before `check_crash` is consulted: the
state is unchanged (in particular no crash file is written and the bandit is
not notified) and the outcome is `timeout`, not `crash`, even though
`check_crash` itself classifies 9 as a crash signal. -/
theorem c6_timeout_skipped_before_crash_check (st : FuzzState)
    (operator : Operator) (obs : RunObs) (i : Nat) (seed_path : String)
    (h9 : obs.status_code = 9) :
    dry_run_step st i seed_path obs = st ∧
    fuzz_iteration st operator obs = (st, RunOutcome.timeout) ∧
    (fuzz_iteration st operator obs).2 ≠ RunOutcome.crash ∧
    (fuzz_iteration st operator obs).1.crash_files = st.crash_files ∧
    check_crash 9 = true := by
  have h1 : dry_run_step st i seed_path obs = st := by
    unfold dry_run_step; simp [h9]
  have h2 : fuzz_iteration st operator obs = (st, RunOutcome.timeout) := by
    unfold fuzz_iteration; simp [h9]
  exact ⟨h1, h2, by rw [h2]; simp, by rw [h2], by decide⟩

/-- Appending a seed carrying the current length as id preserves the
ids-equal-positions invariant. -/
theorem idsArePositions_append (q : List Seed) (s : Seed)
    (hq : idsArePositions q) (hs : s.seed_id = q.length) :
    idsArePositions (q ++ [s]) := by
  intro k t hk
  rcases Nat.lt_or_ge k q.length with hlt | hge
  · rw [List.get?_append hlt] at hk
    exact hq k t hk
  · rw [List.get?_append_right hge] at hk
    match hd : k - q.length, hk with
    | 0, hk =>
        cases hk
        omega
    | n + 1, hk => cases hk

/-- Every branch of one fuzz-loop iteration preserves the
ids-equal-positions invariant: a new seed takes the queue length as id. -/
theorem fuzz_iteration_preserves_ids (st : FuzzState) (operator : Operator)
    (obs : RunObs) (h : idsArePositions st.seed_queue) :
    idsArePositions (fuzz_iteration st operator obs).1.seed_queue := by
  by_cases h9 : obs.status_code = 9
  · simpa [fuzz_iteration, h9] using h
  by_cases hc : check_crash obs.status_code
  · simpa [fuzz_iteration, h9, hc] using h
  by_cases hn : (check_coverage obs.trace_bits st.global_coverage).1
  · simp only [fuzz_iteration, h9, hc, hn, if_true, if_false,
      Bool.false_eq_true, if_neg, ite_false]
    simpa using idsArePositions_append st.seed_queue _ h rfl
  · simpa [fuzz_iteration, h9, hc, hn] using h

/-- Any number of fuzz-loop iterations preserves the ids-equal-positions
invariant. -/
theorem fuzz_run_preserves_ids (its : List (Operator × RunObs)) :
    ∀ st : FuzzState, idsArePositions st.seed_queue →
      idsArePositions (fuzz_run st its).seed_queue := by
  induction its with
  | nil => intro st h; exact h
  | cons p t ih =>
      intro st h
      exact ih _ (fuzz_iteration_preserves_ids st p.1 p.2 h)

/-- Dry-run processing of the remaining files when none of them is skipped,
starting from a queue whose length equals the next enumeration index. -/
theorem dry_run_go (files : List (String × RunObs)) :
    ∀ (i : Nat) (st : FuzzState),
      (∀ f ∈ files, f.2.status_code ≠ 9 ∧
        check_crash f.2.status_code = false) →
      idsArePositions st.seed_queue → st.seed_queue.length = i →
      idsArePositions
        ((files.enumFrom i).foldl
          (fun s p => dry_run_step s p.1 p.2.1 p.2.2) st).seed_queue := by
  induction files with
  | nil => intro i st _ hids _; exact hids
  | cons f fs ih =>
      intro i st hadm hids hlen
      have hf := hadm f (List.mem_cons_self f fs)
      have hstep : dry_run_step st i f.1 f.2 =
          { st with
            seed_queue := st.seed_queue ++
              [⟨f.1, i, (check_coverage f.2.trace_bits st.global_coverage).2,
                f.2.exec_time, f.2.input_size, false⟩]
            global_coverage := st.global_coverage ∪
              (check_coverage f.2.trace_bits st.global_coverage).2
            edge_to_seeds := indexAddCoverage st.edge_to_seeds
              (check_coverage f.2.trace_bits st.global_coverage).2 i } := by
        unfold dry_run_step
        rw [if_neg hf.1, if_neg (by simp [hf.2])]
      show idsArePositions
        (((i, f) :: fs.enumFrom (i + 1)).foldl
          (fun s p => dry_run_step s p.1 p.2.1 p.2.2) st).seed_queue
      rw [List.foldl_cons]
      refine ih (i + 1) _ (fun g hg => hadm g (List.mem_cons_of_mem f hg))
        ?_ ?_
      · rw [hstep]
        exact idsArePositions_append st.seed_queue _ hids (by rw [← hlen])
      · rw [hstep]
        simp [hlen]

/-- C1 (corrected): when no dry-run file is skipped, every seed sits at the
queue position equal to its id, after the dry run and after any sequence of
fuzz-loop iterations — dry-run ids are the enumeration indices of the corpus
files, and each fuzz-loop seed takes the current queue length as id. -/
theorem c1_ids_dense_without_skips (files : List (String × RunObs))
    (its : List (Operator × RunObs))
    (hadmi : ∀ f ∈ files, f.2.status_code ≠ 9 ∧
      check_crash f.2.status_code = false) :
    idsArePositions (fuzz_run (dry_run files {}) its).seed_queue := by
  apply fuzz_run_preserves_ids
  show idsArePositions
    ((files.enumFrom 0).foldl
      (fun s p => dry_run_step s p.1 p.2.1 p.2.2) ({} : FuzzState)).seed_queue
  exact dry_run_go files 0 {} hadmi (fun k s h => by cases h) rfl

/-- Witness for C1: a two-file corpus with no skipped file followed by one
new-coverage fuzz iteration. -/
theorem c1_ids_dense_without_skips_witness :
    (∀ f ∈ [("g0", (⟨0, 1, [1], 8⟩ : RunObs)), ("g1", ⟨0, 1, [0, 1], 8⟩)],
      f.2.status_code ≠ 9 ∧ check_crash f.2.status_code = false) ∧
    idsArePositions
      (fuzz_run
        (dry_run [("g0", ⟨0, 1, [1], 8⟩), ("g1", ⟨0, 1, [0, 1], 8⟩)] {})
        [(.havoc, ⟨0, 1, [0, 1, 1], 8⟩)]).seed_queue := by
  have hadm : ∀ f ∈ [("g0", (⟨0, 1, [1], 8⟩ : RunObs)),
      ("g1", ⟨0, 1, [0, 1], 8⟩)],
      f.2.status_code ≠ 9 ∧ check_crash f.2.status_code = false := by
    intro f hf
    rcases List.mem_cons.mp hf with rfl | hf
    · exact ⟨by decide, by decide⟩
    · rcases List.mem_singleton.mp hf with rfl
      exact ⟨by decide, by decide⟩
  exact ⟨hadm, c1_ids_dense_without_skips _ _ hadm⟩

/-- C1 counterexample: with the first corpus file timing out during the dry
run, the first seed actually inserted carries id 1, not 0 (ids are the file
enumeration indices), and the next fuzz-loop seed is assigned id 1 again —
an id already in use. -/
theorem c1_counterexample :
    c1St.seed_queue.map Seed.seed_id = [1] ∧
    (fuzz_iteration c1St .havoc c1ObsNew).1.seed_queue.map Seed.seed_id =
      [1, 1] := by
  constructor
  · rfl
  · rfl

/-- C2 (corrected): after a non-timeout run of the fuzzing loop the bandit
is updated only when the run crashed (one more use, one more crash, reward
increased by 0) or when it discovered new coverage (one more use, no crash,
reward increased by the size of the new-edge set computed after the global
merge, which is always 0); a non-crashing run with no new coverage leaves
the bandit untouched. -/
theorem c2_bandit_update_cases (st : FuzzState) (operator : Operator)
    (obs : RunObs) (hns : obs.status_code ≠ 9) :
    (check_crash obs.status_code = true →
      (fuzz_iteration st operator obs).1.stats =
        update_rewards st.stats operator 0 true) ∧
    (check_crash obs.status_code = false →
      (check_coverage obs.trace_bits st.global_coverage).1 = true →
      ((check_coverage obs.trace_bits st.global_coverage).2 \
          (st.global_coverage ∪
            (check_coverage obs.trace_bits st.global_coverage).2)).card = 0 ∧
      (fuzz_iteration st operator obs).1.stats =
        update_rewards st.stats operator 0 false) ∧
    (check_crash obs.status_code = false →
      (check_coverage obs.trace_bits st.global_coverage).1 = false →
      (fuzz_iteration st operator obs).1.stats = st.stats) := by
  have hcard : ((check_coverage obs.trace_bits st.global_coverage).2 \
      (st.global_coverage ∪
        (check_coverage obs.trace_bits st.global_coverage).2)).card = 0 := by
    rw [Finset.sdiff_eq_empty_iff_subset.mpr Finset.subset_union_right]
    exact Finset.card_empty
  refine ⟨fun hc => ?_, fun hc hn => ⟨hcard, ?_⟩, fun hc hn => ?_⟩
  · simp [fuzz_iteration, hns, hc]
  · simp only [fuzz_iteration, hns, if_neg, ite_false, hc, hn,
      Bool.false_eq_true, if_true, ite_true]
    rw [hcard]
  · simp [fuzz_iteration, hns, hc, hn]

/-- Witness for C2: a crashing run, a new-coverage run and a plain run at
concrete inputs. -/
theorem c2_bandit_update_cases_witness :
    ((⟨0, 1, [1], 8⟩ : RunObs).status_code ≠ 9) ∧
    ((check_crash (⟨0, 1, [1], 8⟩ : RunObs).status_code = true →
      (fuzz_iteration c2StEmpty .havoc ⟨0, 1, [1], 8⟩).1.stats =
        update_rewards c2StEmpty.stats .havoc 0 true) ∧
     (check_crash (⟨0, 1, [1], 8⟩ : RunObs).status_code = false →
      (check_coverage (⟨0, 1, [1], 8⟩ : RunObs).trace_bits
          c2StEmpty.global_coverage).1 = true →
      ((check_coverage (⟨0, 1, [1], 8⟩ : RunObs).trace_bits
            c2StEmpty.global_coverage).2 \
          (c2StEmpty.global_coverage ∪
            (check_coverage (⟨0, 1, [1], 8⟩ : RunObs).trace_bits
              c2StEmpty.global_coverage).2)).card = 0 ∧
      (fuzz_iteration c2StEmpty .havoc ⟨0, 1, [1], 8⟩).1.stats =
        update_rewards c2StEmpty.stats .havoc 0 false) ∧
     (check_crash (⟨0, 1, [1], 8⟩ : RunObs).status_code = false →
      (check_coverage (⟨0, 1, [1], 8⟩ : RunObs).trace_bits
          c2StEmpty.global_coverage).1 = false →
      (fuzz_iteration c2StEmpty .havoc ⟨0, 1, [1], 8⟩).1.stats =
        c2StEmpty.stats)) :=
  ⟨by decide, c2_bandit_update_cases c2StEmpty .havoc ⟨0, 1, [1], 8⟩
    (by decide)⟩

/-- C2 counterexample: a non-timeout run that neither crashes nor finds new
coverage does not increment any use counter (the single-seed always-exit-0
scenario keeps `havoc_uses` at 0), and a run that does discover one new edge
increases the reward by 0, not by 1. -/
theorem c2_counterexample :
    ((fuzz_iteration c1St .havoc c2ObsOld).2 ≠ RunOutcome.timeout ∧
     (fuzz_iteration c1St .havoc c2ObsOld).1.stats.havoc_uses = 0 ∧
     (fuzz_iteration c1St .havoc c2ObsOld).1.stats = c1St.stats) ∧
    ((fuzz_iteration c2StEmpty .havoc c2ObsOld).2 = RunOutcome.newSeed ∧
     ((check_coverage c2ObsOld.trace_bits c2StEmpty.global_coverage).2 \
        c2StEmpty.global_coverage).card = 1 ∧
     (fuzz_iteration c2StEmpty .havoc c2ObsOld).1.stats.havoc_rewards = 0) :=
  by decide

/-- C4 (corrected): when the queue holds at least two seeds, a partner with
a different id is drawn, and the selected seed file has at least 8 bytes
(the havoc minimum) while the partner file has at least 4, the splice
mutator first writes the spliced bytes `a[:p1] ++ b[p2:]` to
`current_input`, with `p1` in `[1, len1-2]` and `p2` in `[1, len2-2]`, and
then overwrites `current_input` with a fresh havoc mutation of the original
selected seed file, which is the final content. -/
theorem c4_splice_then_havoc (dict : List (List Nat))
    (fs : String → List Nat) (seed other : Seed) (seed_queue : List Seed)
    (choice p1r p2r : Nat) (ops : List HavocOp)
    (h2 : 2 ≤ seed_queue.length)
    (hother :
      (seed_queue.filter (fun s => s.seed_id ≠ seed.seed_id)).get?
        (choice %
          (seed_queue.filter (fun s => s.seed_id ≠ seed.seed_id)).length) =
        some other)
    (h1 : 8 ≤ (fs seed.path).length) (hp : 4 ≤ (fs other.path).length) :
    ∃ havoc_out,
      havoc_mutate dict ops (fs seed.path) = some havoc_out ∧
      splice_mutate dict fs seed seed_queue choice p1r p2r ops =
        [(fs seed.path).take (1 + p1r % ((fs seed.path).length - 2)) ++
           (fs other.path).drop (1 + p2r % ((fs other.path).length - 2)),
         havoc_out] ∧
      other.seed_id ≠ seed.seed_id ∧
      1 ≤ 1 + p1r % ((fs seed.path).length - 2) ∧
      1 + p1r % ((fs seed.path).length - 2) ≤ (fs seed.path).length - 2 ∧
      1 ≤ 1 + p2r % ((fs other.path).length - 2) ∧
      1 + p2r % ((fs other.path).length - 2) ≤ (fs other.path).length - 2 := by
  have hmut : havoc_mutate dict ops (fs seed.path) =
      some (ops.foldl (applyHavocOp dict) (fs seed.path)) := by
    unfold havoc_mutate
    rw [if_neg (by omega)]
  refine ⟨ops.foldl (applyHavocOp dict) (fs seed.path), hmut, ?_, ?_, ?_, ?_,
    ?_, ?_⟩
  · unfold splice_mutate
    rw [if_neg (by omega)]
    dsimp only
    rw [hother]
    dsimp only
    rw [if_neg (by omega)]
    unfold havocWrites
    rw [hmut]
  · have hmem := List.get?_mem hother
    have hdec := (List.mem_filter.mp hmem).2
    simpa using hdec
  · omega
  · have := Nat.mod_lt p1r (y := (fs seed.path).length - 2) (by omega)
    omega
  · omega
  · have := Nat.mod_lt p2r (y := (fs other.path).length - 2) (by omega)
    omega

/-- Witness for C4 at an 8-byte seed, a 4-byte partner and one bit-flip
havoc draw. -/
theorem c4_splice_then_havoc_witness :
    (2 ≤ ([c4wa, c4b] : List Seed).length ∧
     (([c4wa, c4b] : List Seed).filter
         (fun s => s.seed_id ≠ c4wa.seed_id)).get?
       (0 % (([c4wa, c4b] : List Seed).filter
         (fun s => s.seed_id ≠ c4wa.seed_id)).length) = some c4b ∧
     8 ≤ (c4wfs c4wa.path).length ∧ 4 ≤ (c4wfs c4b.path).length) ∧
    ∃ havoc_out,
      havoc_mutate [] c4ops (c4wfs c4wa.path) = some havoc_out ∧
      splice_mutate [] c4wfs c4wa [c4wa, c4b] 0 0 0 c4ops =
        [(c4wfs c4wa.path).take (1 + 0 % ((c4wfs c4wa.path).length - 2)) ++
           (c4wfs c4b.path).drop (1 + 0 % ((c4wfs c4b.path).length - 2)),
         havoc_out] ∧
      c4b.seed_id ≠ c4wa.seed_id ∧
      1 ≤ 1 + 0 % ((c4wfs c4wa.path).length - 2) ∧
      1 + 0 % ((c4wfs c4wa.path).length - 2) ≤ (c4wfs c4wa.path).length - 2 ∧
      1 ≤ 1 + 0 % ((c4wfs c4b.path).length - 2) ∧
      1 + 0 % ((c4wfs c4b.path).length - 2) ≤ (c4wfs c4b.path).length - 2 :=
  ⟨⟨by decide, by decide, by decide, by decide⟩,
   c4_splice_then_havoc [] c4wfs c4wa c4b [c4wa, c4b] 0 0 0 c4ops (by decide)
     (by decide) (by decide) (by decide)⟩

/-- C4 counterexample: a 5-byte selected seed and a 4-byte partner satisfy
the stated length hypotheses, the splice is written, but the subsequent
havoc call skips the short seed file and never overwrites `current_input`,
so the final content is the spliced data and not a havoc of the original
seed. -/
theorem c4_counterexample :
    4 ≤ (c4fs c4a.path).length ∧ 4 ≤ (c4fs c4b.path).length ∧
    2 ≤ ([c4a, c4b] : List Seed).length ∧
    c4b.seed_id ≠ c4a.seed_id ∧
    splice_mutate [] c4fs c4a [c4a, c4b] 0 0 0 c4ops = [[0, 9, 9, 9]] ∧
    havoc_mutate [] c4ops (c4fs c4a.path) = none := by
  decide

/-- Witness for C6 at a concrete state and a status-9 observation. -/
theorem c6_timeout_skipped_witness :
    (RunObs.status_code ⟨9, 1, [1], 8⟩ = 9) ∧
    (dry_run_step c1St 0 "f" ⟨9, 1, [1], 8⟩ = c1St ∧
     fuzz_iteration c1St .havoc ⟨9, 1, [1], 8⟩ = (c1St, RunOutcome.timeout) ∧
     (fuzz_iteration c1St .havoc ⟨9, 1, [1], 8⟩).2 ≠ RunOutcome.crash ∧
     (fuzz_iteration c1St .havoc ⟨9, 1, [1], 8⟩).1.crash_files =
       c1St.crash_files ∧
     check_crash 9 = true) :=
  ⟨rfl, c6_timeout_skipped_before_crash_check c1St .havoc ⟨9, 1, [1], 8⟩ 0 "f"
    rfl⟩

end MiniLop
